import Mathlib

/-!
Shallow embedding of the `cffirestore` convenience layer (Go) over the
Firestore client SDK, together with theorems settling the frozen claims
about its specification.

The embedding covers:
* dynamic Go values appearing in condition clauses and documents (`QVal`),
  where composite values (`map[string]any`, `[]any`) are represented by
  reference, mirroring Go's reference semantics for maps and slices;
* the condition-to-query compiler `MakeQuery` and its helpers
  (`parseOrderBy`, option-map handling);
* the diff/batch pipeline `makeUpdateData` / `batchEach500Docs` /
  `BatchDocs`, with Go's run-time panic on comparing uncomparable
  interface values modeled by `Option`;
* a heap model of `deepCopyMap` for the structural-independence claim;
* `GetDoc`, `FindDoc`, `CountDocs`, `Paginate`, `PaginateWithCount`.

Network effects (query execution, bulk-writer submission) are abstracted
as oracle functions passed to the models; everything on the library's own
side is translated from the source.
-/

namespace CFFirestore

/-- A dynamic Go value (`any`) as it appears in condition clauses and in
document field maps.  Scalars carry their value; a `map[string]any` or
`[]any` is carried by reference (an address), as in Go, because the
library never inspects their contents through this interface — it only
compares them (which panics in Go, see `goEq`) or passes them through
verbatim.  A `[]string` (`vstrSlice`) carries its elements because
`MakeQuery` iterates over them for `orderBy`. -/
inductive QVal : Type where
  | vnull : QVal
  | vbool : Bool → QVal
  | vint : Int → QVal
  | vstr : String → QVal
  | vstrSlice : List String → QVal
  | varr : Nat → QVal
  | vmap : Nat → QVal
  deriving DecidableEq, Repr

/-- A Go map value `map[string]any`, as an association list.  Go maps are
unordered; the list order models one arbitrary but fixed iteration order. -/
abbrev GoMap := List (String × QVal)

/-- Source: `var IdFieldName = "id"`. -/
def idFieldName : String := "id"

/-- Source: `var UpdatedAtFieldName = "updatedAt"`. -/
def updatedAtFieldName : String := "updatedAt"

/-- Source: `var CreatedAtFieldName = "createdAt"`. -/
def createdAtFieldName : String := "createdAt"

/-- Source: `var DefaultPaginatePerPage = 25`. -/
def defaultPaginatePerPage : Int := 25

/-- Go map assignment / merge helper: entries of `m2` override same-keyed
entries of `m1`.  Since Go map iteration order is unspecified, the model
places the overriding entries at the end, one fixed determinization of
`lo.Assign(m1, m2)`. -/
def assign (m1 m2 : GoMap) : GoMap :=
  m1.filter (fun kv => (List.lookup kv.1 m2).isNone) ++ m2

/-- Go map update `m[k] = v`, determinized the same way as `assign`. -/
def mapSet (m : GoMap) (k : String) (v : QVal) : GoMap :=
  assign m [(k, v)]

/-- Go map read `m[k]`: a missing key yields the zero value of `any`,
which is `nil`. -/
def goIndex (m : GoMap) (k : String) : QVal :=
  (List.lookup k m).getD .vnull

/-! ## Condition clauses and the compiled query -/

/-- One element of a condition sequence: in the source every element of
`condition []any` is dispatched by `reflect` kind, a `[]any` slice
(filter triple) or a `map[string]any` (equality filters or, in final
position, query modifiers). -/
inductive Cond : Type where
  | slice : List QVal → Cond
  | mp : GoMap → Cond
  deriving DecidableEq, Repr

/-- Firestore order direction (`firestore.Asc` / `firestore.Desc`). -/
inductive Direction : Type where
  | asc
  | desc
  deriving DecidableEq, Repr

/-- Source struct `OrderBy { Field string; Direction firestore.Direction }`. -/
structure OrderBy where
  obField : String
  obDirection : Direction
  deriving DecidableEq, Repr

/-- `strings.ToLower`, restricted to ASCII: every key and direction token
the library lower-cases is ASCII.  Defined over the character list so
that it evaluates by kernel reduction. -/
def goToLower (s : String) : String :=
  String.mk (s.data.map Char.toLower)

/-- Source: `parseOrderBy` in helpers.go — splits `field:direction` on
`:`, defaults a missing direction to `asc`, trims both parts, and maps an
unknown direction token to `asc`; an empty input yields `nil`. -/
def parseOrderBy (s : String) : Option OrderBy :=
  if s = "" then none
  else
    let parts := s.splitOn ":"
    let parts := if parts.length = 1 then parts ++ ["asc"] else parts
    let f := ((parts.getD 0 "").trim)
    match goToLower ((parts.getD 1 "").trim) with
    | "asc" => some ⟨f, .asc⟩
    | "desc" => some ⟨f, .desc⟩
    | _ => some ⟨f, .asc⟩

/-- The compiled `firestore.Query`, restricted to the state this library
can set: `Where` and `OrderBy` append, the other modifiers overwrite. -/
structure Query where
  wheres : List (String × String × QVal)
  orderBys : List (String × Direction)
  qLimit : Option Int
  qOffset : Option Int
  qStartAt : Option QVal
  qStartAfter : Option QVal
  qEndAt : Option QVal
  qEndBefore : Option QVal
  deriving DecidableEq, Repr

/-- The unfiltered query `coll.ref.Query`. -/
def emptyQuery : Query :=
  ⟨[], [], none, none, none, none, none, none⟩

/-- `query.Where(path, op, val)`. -/
def Query.whereF (q : Query) (path op : String) (val : QVal) : Query :=
  { q with wheres := q.wheres ++ [(path, op, val)] }

/-- `query.OrderBy(field, dir)`. -/
def Query.orderByF (q : Query) (f : String) (d : Direction) : Query :=
  { q with orderBys := q.orderBys ++ [(f, d)] }

/-- Apply one `orderBy` spec string as `MakeQuery` does: parse it and,
when the parsed field is non-empty, append it to the order-by list. -/
def applyOrderBySpec (q : Query) (s : String) : Query :=
  match parseOrderBy s with
  | some ob => if ob.obField.length > 0 then q.orderByF ob.obField ob.obDirection else q
  | none => q

/-- The `else` branch of `MakeQuery`'s map case: one key/value pair of the
final options mapping.  The key is matched lower-cased against the fixed
modifier set; an unrecognized key falls through and leaves the query
unchanged.  `none` models the run-time panics of the source: `val.(int)`
on a non-int limit/offset, `val.([]string)` on a slice that is not a
`[]string`, and `reflect.TypeOf(nil).Kind()` for a nil `orderBy` value. -/
def applyOptEntry (q : Query) (key : String) (val : QVal) : Option Query :=
  match goToLower key with
  | "orderby" =>
    match val with
    | .vnull => none
    | .vstr s => some (applyOrderBySpec q s)
    | .vstrSlice l => some (l.foldl applyOrderBySpec q)
    | .varr _ => none
    | _ => some q
  | "limit" =>
    match val with
    | .vint n => some { q with qLimit := some n }
    | _ => none
  | "offset" =>
    match val with
    | .vint n => some { q with qOffset := some n }
    | _ => none
  | "startat" => some { q with qStartAt := some val }
  | "startafter" => some { q with qStartAfter := some val }
  | "endat" => some { q with qEndAt := some val }
  | "endbefore" => some { q with qEndBefore := some val }
  | _ => some q

/-- Processing of the final options mapping: fold `applyOptEntry` over its
entries (`for key, val := range vMap` in the source). -/
def applyLastMapEntries (q : Query) (entries : GoMap) : Option Query :=
  entries.foldlM (fun acc kv => applyOptEntry acc kv.1 kv.2) q

/-- A slice clause `[]any{path, op, val}`: the source indexes positions
0‥2 and type-asserts the first two to `string`; `none` models the panics
on a short slice or a failed assertion. -/
def applySliceClause (q : Query) (elems : List QVal) : Option Query :=
  match elems.get? 0, elems.get? 1, elems.get? 2 with
  | some (.vstr path), some (.vstr op), some val => some (q.whereF path op val)
  | _, _, _ => none

/-- A clause in non-final position (`idx != len(condition)-1`): a slice is
a filter triple; every entry of a mapping becomes an `==` filter. -/
def applyCondNonLast (q : Query) : Cond → Option Query
  | .slice elems => applySliceClause q elems
  | .mp entries =>
    some (entries.foldl (fun acc kv => acc.whereF kv.1 "==" kv.2) q)

/-- The final clause: a slice is still a filter triple; a mapping is the
options mapping. -/
def applyCondLast (q : Query) : Cond → Option Query
  | .slice elems => applySliceClause q elems
  | .mp entries => applyLastMapEntries q entries

/-- The loop of `MakeQuery`, threading the accumulating query through the
clauses and treating the last clause specially. -/
def applyConds : Query → List Cond → Option Query
  | q, [] => some q
  | q, [c] => applyCondLast q c
  | q, c :: c2 :: rest =>
    match applyCondNonLast q c with
    | none => none
    | some q2 => applyConds q2 (c2 :: rest)

/-- Source: `MakeQuery` — compile a condition sequence starting from the
unfiltered collection query.  `none` models a run-time panic. -/
def makeQuery (condition : List Cond) : Option Query :=
  applyConds emptyQuery condition

/-- The lower-cased modifier keys recognized by the final options mapping. -/
def recognizedOptKeys : List String :=
  ["orderby", "limit", "offset", "startat", "startafter", "endat", "endbefore"]

/-! ## The diff/batch pipeline -/

/-- Go equality `a == b` on two `any` values.  Two interface values whose
identical dynamic type is uncomparable (`map[string]any`, `[]any`,
`[]string`) make the comparison panic at run time (`none`); values of
different dynamic types compare unequal; comparable scalars compare by
value. -/
def goEq : QVal → QVal → Option Bool
  | .vmap _, .vmap _ => none
  | .varr _, .varr _ => none
  | .vstrSlice _, .vstrSlice _ => none
  | .vnull, .vnull => some true
  | .vbool a, .vbool b => some (a == b)
  | .vint a, .vint b => some (a == b)
  | .vstr a, .vstr b => some (a == b)
  | _, _ => some false

/-- One entry of the `[]firestore.Update` built by `makeUpdateData`. -/
structure FsUpdate where
  path : String
  value : QVal
  deriving DecidableEq, Repr

/-- Source: `makeUpdateData(oldDoc, batchFn)` — apply the transform to a
deep copy of the document and collect an update for every field of the
original whose value differs from the transformed copy's, skipping the
`id` field.  `deepCopyMap` is modeled as the identity on the pure value:
the comparison `goEq` never distinguishes composite values except by
panicking, so the copy's fresh addresses cannot influence the result (the
aliasing content of `deepCopyMap` is verified separately in the heap model
below).  `none` models the run-time panic of Go's `newVal != oldVal` on
uncomparable dynamic types. -/
def makeUpdateData (oldDoc : GoMap) (batchFn : Option (GoMap → GoMap)) :
    Option (List FsUpdate) :=
  let afterDoc := match batchFn with
    | some f => f oldDoc
    | none => oldDoc
  oldDoc.foldlM
    (fun acc kv =>
      if kv.1 = idFieldName then some acc
      else
        match goEq (goIndex afterDoc kv.1) kv.2 with
        | none => none
        | some true => some acc
        | some false => some (acc ++ [⟨kv.1, goIndex afterDoc kv.1⟩]))
    []

/-- Spec-level update delta, following the spec's words: the fields of the
processed document whose value differs between the original and the
transformed copy, excluding the identifier field, each paired with its
new value (a field removed by the transform reads back as `nil`). -/
def specDelta (oldDoc afterDoc : GoMap) : List FsUpdate :=
  (oldDoc.filter
    (fun kv => kv.1 != idFieldName && goIndex afterDoc kv.1 != kv.2)).map
    (fun kv => ⟨kv.1, goIndex afterDoc kv.1⟩)

/-- The job-construction loop of `batchEach500Docs` (lines 215–241): for
each document, resolve its reference from the `id` field (the source's
`doc[IdFieldName].(string)` panics when it is absent or not a string —
`none`), compute the update delta, skip the document when the delta is
empty, and otherwise queue an update extended with an `updatedAt`
timestamp (`now`).  Bulk-writer submission errors are outside this model. -/
def buildJobs (docs : List GoMap) (batchFn : Option (GoMap → GoMap))
    (now : QVal) : Option (List (String × List FsUpdate)) :=
  docs.foldlM
    (fun jobs doc => do
      let docId ←
        (match List.lookup idFieldName doc with
          | some (QVal.vstr s) => some s
          | _ => none : Option String)
      let updateData ← makeUpdateData doc batchFn
      if updateData.length = 0 then some jobs
      else
        some (jobs ++ [(docId, updateData ++ [⟨updatedAtFieldName, now⟩])]))
    []

/-- The recursion of `lo.Chunk`, made structural on a fuel argument (one
unit per produced chunk suffices, and the callers pass the list length)
so that it evaluates by kernel reduction. -/
def chunksOfFuel (n : Nat) : Nat → List α → List (List α)
  | _, [] => []
  | 0, _ => []
  | fuel + 1, x :: xs => (x :: xs.take n) :: chunksOfFuel n fuel (xs.drop n)

/-- `lo.Chunk(l, n+1)`: split a list into consecutive chunks of size at
most `n+1` (the `+1` keeps the chunk size positive by construction, as
`lo.Chunk` requires). -/
def chunksOf (n : Nat) (l : List α) : List (List α) :=
  chunksOfFuel n l.length l

/-- `lo.Chunk(docs, 500)`. -/
def chunk500 (docs : List GoMap) : List (List GoMap) :=
  chunksOf 499 docs

/-- Source: the group loop of `BatchDocs` (lines 155–177).  The documents
matching the condition (`ListDocs` is a network call, abstracted as the
`docs` argument) are chunked into groups of 500 and submitted group by
group; `submit` abstracts `batchEach500Docs`'s outcome for one group — a
list of write results plus an optional error (`errors.Join` of the
group's accumulated errors).  A group that reports an error contributes
its error and none of its results (`continue` fires before the results
are appended); the call returns the collected results together with the
list of accumulated errors (`errors.Join(errs...)`, `[]` meaning `nil`).
An empty input fails with "no docs to batch". -/
def batchDocsModel {W E : Type} (docs : List GoMap)
    (submit : List GoMap → List W × Option E) :
    Except String (List W × List E) :=
  if docs.length = 0 then .error "no docs to batch"
  else
    .ok ((chunk500 docs).foldl
      (fun acc g =>
        match submit g with
        | (_, some e) => (acc.1, acc.2 ++ [e])
        | (results, none) => (acc.1 ++ results, acc.2))
      ([], []))

/-! ## Single-document reads, counting, pagination -/

/-- A gRPC status error returned by the Firestore client. -/
structure GrpcErr where
  code : Nat
  msg : String
  deriving DecidableEq, Repr

/-- `codes.NotFound`. -/
def notFoundCode : Nat := 5

/-- A Go `error` value as this library produces it: either an error
propagated unchanged from the client, or a fresh `errors.New` message. -/
inductive GoErr : Type where
  | grpc : GrpcErr → GoErr
  | newErr : String → GoErr
  deriving DecidableEq, Repr

instance {ε α : Type} [DecidableEq ε] [DecidableEq α] :
    DecidableEq (Except ε α)
  | .error a, .error b =>
    if h : a = b then .isTrue (by rw [h])
    else .isFalse (by intro hc; injection hc; contradiction)
  | .error _, .ok _ => .isFalse (fun hc => Except.noConfusion hc)
  | .ok _, .error _ => .isFalse (fun hc => Except.noConfusion hc)
  | .ok a, .ok b =>
    if h : a = b then .isTrue (by rw [h])
    else .isFalse (by intro hc; injection hc; contradiction)

/-- A document snapshot: its data map, its reference's `ID` and `Path`. -/
structure DocSnap where
  data : GoMap
  snapId : String
  snapPath : String
  deriving DecidableEq, Repr

/-- Source: `makeDocResponse` in helpers.go — the document data merged
with `_id` and `_ref` metadata via `lo.Assign`. -/
def makeDocResponse (doc : DocSnap) : GoMap :=
  assign doc.data [("_id", .vstr doc.snapId), ("_ref", .vstr doc.snapPath)]

/-- Source: `GetDoc(id)` — fetch the document (the network call is the
`get` oracle); a `codes.NotFound` client error becomes
`errors.New("doc not found: <id>")`, any other client error is returned
unchanged, and a successful snapshot is flattened by `makeDocResponse`. -/
def getDocModel (get : String → Except GrpcErr DocSnap) (docId : String) :
    Except GoErr GoMap :=
  match get docId with
  | .error e =>
    if e.code = notFoundCode then .error (.newErr ("doc not found: " ++ docId))
    else .error (.grpc e)
  | .ok doc => .ok (makeDocResponse doc)

/-- Source: the condition rewrite of `FindDoc` (lines 110–127): take the
last clause (`lo.Last` errors on an empty sequence, which `FindDoc`
returns); after a slice clause append `map[string]any{"limit": 1}`; into
a final mapping clause write `lastCondMap["limit"] = 1`. -/
def findDocConds (condition : List Cond) : Except GoErr (List Cond) :=
  match condition.getLast? with
  | none => .error (.newErr "last: empty list")
  | some lastCond =>
    match lastCond with
    | .slice _ => .ok (condition ++ [.mp [("limit", .vint 1)]])
    | .mp entries =>
      .ok (condition.dropLast ++ [.mp (mapSet entries "limit" (.vint 1))])

/-- Source: `FindDoc` — rewrite the condition to force `limit 1`, run the
compiled query (`runQuery` abstracts `ListDocs`' network call on the
compiled query), and return the first document, or `nil` document with
`nil` error when nothing matched.  The outer `none` models a `MakeQuery`
panic. -/
def findDocModel (condition : List Cond)
    (runQuery : Query → Except GoErr (List GoMap)) :
    Option (Except GoErr (Option GoMap)) :=
  match findDocConds condition with
  | .error e => some (.error e)
  | .ok conds2 =>
    match makeQuery conds2 with
    | none => none
    | some q =>
      match runQuery q with
      | .error e => some (.error e)
      | .ok [] => some (.ok none)
      | .ok (d :: _) => some (.ok (some d))

/-- Source: the condition rewrite of `CountDocs` (lines 397–408): take
the last clause (`lo.Last` errors on an empty sequence) and drop it when
it is a mapping. -/
def countConds (condition : List Cond) : Except GoErr (List Cond) :=
  match condition.getLast? with
  | none => .error (.newErr "last: empty list")
  | some (.mp _) => .ok condition.dropLast
  | some _ => .ok condition

/-- Source: `CountDocs` — compile the rewritten condition and run the
`COUNT` aggregation on it; `agg` abstracts a successful aggregation
round trip as a function of the compiled query; the outer `none` models a
`MakeQuery` panic. -/
def countDocsModel (condition : List Cond) (agg : Query → Int) :
    Option (Except GoErr Int) :=
  match countConds condition with
  | .error e => some (.error e)
  | .ok conds2 =>
    match makeQuery conds2 with
    | none => none
    | some q => some (.ok (agg q))

/-- Source: the condition/paging rewrite of `Paginate` (lines 434–458):
default `page` to 1 and `perPage` to `DefaultPaginatePerPage` when zero,
then read `condition[len(condition)-1]` — an out-of-range panic (`none`)
on an empty sequence — and attach `{"limit": perPage, "offset":
(page-1)*perPage}`: appended after a slice clause, merged over a final
mapping clause with `lo.Assign`.  Returns the rewritten condition and the
effective `page`/`perPage`. -/
def paginateConds (condition : List Cond) (page perPage : Int) :
    Option (List Cond × Int × Int) :=
  let page := if page = 0 then 1 else page
  let perPage := if perPage = 0 then defaultPaginatePerPage else perPage
  match condition.getLast? with
  | none => none
  | some lastCond =>
    let pageMap : GoMap :=
      [("limit", .vint perPage), ("offset", .vint ((page - 1) * perPage))]
    match lastCond with
    | .slice _ => some (condition ++ [.mp pageMap], page, perPage)
    | .mp entries =>
      some (condition.dropLast ++ [.mp (assign entries pageMap)], page, perPage)

/-- The query `Paginate` hands to `ListDocs`: the compiled rewritten
condition. -/
def paginateQuery (condition : List Cond) (page perPage : Int) :
    Option Query :=
  match paginateConds condition page perPage with
  | none => none
  | some (conds2, _, _) => makeQuery conds2

/-- Source: the `totalPage` computation of `PaginateWithCount` (lines
490–495), with Go's truncated integer division and remainder. -/
def totalPageOf (count perPage : Int) : Int :=
  if Int.tmod count perPage = 0 then Int.tdiv count perPage
  else Int.tdiv count perPage + 1

/-! ## Heap model of `deepCopyMap`

Go maps and slices are references into a heap; `deepCopyMap` in
helpers.go recursively clones them (`reflect.MakeMap` / `MakeSlice` with
per-entry recursive copies) and returns every other value unchanged.  To
state that the clone is structurally independent of the original we make
the heap explicit: a value is a scalar or an address, the heap maps
addresses to map/slice objects, and `deepCopyMap` allocates fresh cells.
Recursion is fueled: `deepCopyMap` diverges on cyclic heaps, which Go
values obtained from a Firestore snapshot never are, and every theorem
assumes enough fuel through a successful `readV`. -/

/-- A scalar Go value (the `default` branch of `deepCopyMap`, returned
uncopied). -/
inductive Prim : Type where
  | pnull
  | pbool : Bool → Prim
  | pint : Int → Prim
  | pstr : String → Prim
  deriving DecidableEq, Repr

/-- A Go value in the heap model: a scalar, or the address of a map or
slice object. -/
inductive HVal : Type where
  | prim : Prim → HVal
  | href : Nat → HVal
  deriving DecidableEq, Repr

/-- A heap object: the contents of one `map[string]any` or `[]any`. -/
inductive HObj : Type where
  | hmap : List (String × HVal) → HObj
  | hslice : List HVal → HObj
  deriving DecidableEq, Repr

/-- The heap: cell `a` is `cells[a]`; fresh cells are appended. -/
structure Heap where
  cells : List HObj
  deriving Repr

def Heap.get (h : Heap) (a : Nat) : Option HObj :=
  h.cells[a]?

def Heap.size (h : Heap) : Nat :=
  h.cells.length

/-- Allocate a fresh cell, returning its address. -/
def Heap.alloc (h : Heap) (o : HObj) : Heap × Nat :=
  (⟨h.cells ++ [o]⟩, h.cells.length)

/-- Overwrite cell `a` — an in-place mutation of a Go map or slice. -/
def Heap.put (h : Heap) (a : Nat) (o : HObj) : Heap :=
  ⟨h.cells.set a o⟩

/-- The addresses a value mentions directly. -/
def refsOfV : HVal → List Nat
  | .prim _ => []
  | .href a => [a]

/-- The addresses a heap object mentions directly. -/
def refsOfObj : HObj → List Nat
  | .hmap entries => entries.flatMap (fun kv => refsOfV kv.2)
  | .hslice elems => elems.flatMap refsOfV

/-- Every cell below address `n` only references addresses below `n`. -/
def heapClosedBelow (n : Nat) (h : Heap) : Prop :=
  ∀ a, a < n → ∀ o, h.get a = some o → ∀ b ∈ refsOfObj o, b < n

/-- Every cell at address `≥ n` only references addresses `≥ n`. -/
def segClosedFrom (n : Nat) (h : Heap) : Prop :=
  ∀ a, n ≤ a → ∀ o, h.get a = some o → ∀ b ∈ refsOfObj o, n ≤ b

/-- Executable check of `heapClosedBelow n h` for `n = h.size`. -/
def heapClosedB (h : Heap) : Bool :=
  h.cells.all (fun o => (refsOfObj o).all (fun b => b < h.cells.length))

/-- Executable check that a value only references addresses below `n`. -/
def valRefsBelowB (n : Nat) (v : HVal) : Bool :=
  (refsOfV v).all (fun b => b < n)

mutual

/-- Source: `deepCopyMap` in helpers.go.  A map object is cloned entry by
entry and a slice element by element, each value copied recursively, and
the clone is allocated as a fresh cell; a scalar is returned as is.  When
fuel runs out or an address dangles the value is returned uncopied (the
theorems rule both out via a successful `readV`). -/
def deepCopyV : Nat → Heap → HVal → HVal × Heap
  | _, h, .prim p => (.prim p, h)
  | 0, h, .href a => (.href a, h)
  | fuel + 1, h, .href a =>
    match h.get a with
    | none => (.href a, h)
    | some (.hmap entries) =>
      let r := deepCopyEntries fuel h entries
      let r2 := r.2.alloc (.hmap r.1)
      (.href r2.2, r2.1)
    | some (.hslice elems) =>
      let r := deepCopyElems fuel h elems
      let r2 := r.2.alloc (.hslice r.1)
      (.href r2.2, r2.1)
termination_by fuel _ v => (fuel, sizeOf v)

def deepCopyEntries : Nat → Heap → List (String × HVal) →
    List (String × HVal) × Heap
  | _, h, [] => ([], h)
  | fuel, h, (k, v) :: rest =>
    let r := deepCopyV fuel h v
    let r2 := deepCopyEntries fuel r.2 rest
    ((k, r.1) :: r2.1, r2.2)
termination_by fuel _ l => (fuel, sizeOf l)

def deepCopyElems : Nat → Heap → List HVal → List HVal × Heap
  | _, h, [] => ([], h)
  | fuel, h, v :: rest =>
    let r := deepCopyV fuel h v
    let r2 := deepCopyElems fuel r.2 rest
    (r.1 :: r2.1, r2.2)
termination_by fuel _ l => (fuel, sizeOf l)

end

/-- A pure value tree — the observation a caller can make of a
document's nested structure. -/
inductive PVal : Type where
  | prim : Prim → PVal
  | pmap : List (String × PVal) → PVal
  | pslice : List PVal → PVal

mutual

/-- Read a value out of the heap as a pure tree.  `none` when fuel is
exhausted or an address dangles. -/
def readV : Nat → Heap → HVal → Option PVal
  | _, _, .prim p => some (.prim p)
  | 0, _, .href _ => none
  | fuel + 1, h, .href a =>
    match h.get a with
    | none => none
    | some (.hmap entries) => (readEntries fuel h entries).map .pmap
    | some (.hslice elems) => (readElems fuel h elems).map .pslice
termination_by fuel _ v => (fuel, sizeOf v)

def readEntries : Nat → Heap → List (String × HVal) →
    Option (List (String × PVal))
  | _, _, [] => some []
  | fuel, h, (k, v) :: rest =>
    match readV fuel h v with
    | none => none
    | some p =>
      match readEntries fuel h rest with
      | none => none
      | some ps => some ((k, p) :: ps)
termination_by fuel _ l => (fuel, sizeOf l)

def readElems : Nat → Heap → List HVal → Option (List PVal)
  | _, _, [] => some []
  | fuel, h, v :: rest =>
    match readV fuel h v with
    | none => none
    | some p =>
      match readElems fuel h rest with
      | none => none
      | some ps => some (p :: ps)
termination_by fuel _ l => (fuel, sizeOf l)

end

mutual

/-- The addresses reachable from a value within `fuel` dereferences. -/
def reachV : Nat → Heap → HVal → List Nat
  | _, _, .prim _ => []
  | 0, _, .href a => [a]
  | fuel + 1, h, .href a =>
    a ::
      (match h.get a with
        | none => []
        | some (.hmap entries) => reachEntries fuel h entries
        | some (.hslice elems) => reachElems fuel h elems)
termination_by fuel _ v => (fuel, sizeOf v)

def reachEntries : Nat → Heap → List (String × HVal) → List Nat
  | _, _, [] => []
  | fuel, h, (_, v) :: rest => reachV fuel h v ++ reachEntries fuel h rest
termination_by fuel _ l => (fuel, sizeOf l)

def reachElems : Nat → Heap → List HVal → List Nat
  | _, _, [] => []
  | fuel, h, v :: rest => reachV fuel h v ++ reachElems fuel h rest
termination_by fuel _ l => (fuel, sizeOf l)

end

/-! ## Shared lemmas about the condition compiler -/

/-- Splitting `MakeQuery`'s loop at the final clause: the prefix is
processed by the non-final rule, the last clause by the final rule. -/
theorem applyConds_concat (l : List Cond) (c : Cond) (q : Query) :
    applyConds q (l ++ [c]) =
      (l.foldlM applyCondNonLast q).bind (fun q2 => applyCondLast q2 c) := by
  induction l generalizing q with
  | nil => simp [applyConds]
  | cons a as ih =>
    cases as with
    | nil =>
      cases h : applyCondNonLast q a <;>
        simp [applyConds, h, List.foldlM_cons]
    | cons b bs =>
      cases h : applyCondNonLast q a with
      | none => simp [applyConds, h]
      | some q2 =>
        calc applyConds q (a :: b :: bs ++ [c])
            = applyConds q2 ((b :: bs) ++ [c]) := by
              simp only [List.cons_append, applyConds, h]
              rfl
          _ = ((b :: bs).foldlM applyCondNonLast q2).bind
                (fun q3 => applyCondLast q3 c) := ih q2
          _ = ((a :: b :: bs).foldlM applyCondNonLast q).bind
                (fun q3 => applyCondLast q3 c) := by
              conv_rhs => rw [List.foldlM_cons, h]
              simp

/-- `applyOrderBySpec` only touches the order-by list. -/
theorem applyOrderBySpec_fields (q : Query) (s : String) :
    (applyOrderBySpec q s).wheres = q.wheres ∧
    (applyOrderBySpec q s).qLimit = q.qLimit ∧
    (applyOrderBySpec q s).qOffset = q.qOffset := by
  unfold applyOrderBySpec
  split
  · split <;> simp [Query.orderByF]
  · simp

/-- A fold of `applyOrderBySpec` only touches the order-by list. -/
theorem foldl_applyOrderBySpec_fields (l : List String) (q : Query) :
    (l.foldl applyOrderBySpec q).wheres = q.wheres ∧
    (l.foldl applyOrderBySpec q).qLimit = q.qLimit ∧
    (l.foldl applyOrderBySpec q).qOffset = q.qOffset := by
  induction l generalizing q with
  | nil => simp
  | cons s rest ih =>
    simp only [List.foldl_cons]
    obtain ⟨h1, h2, h3⟩ := ih (applyOrderBySpec q s)
    obtain ⟨g1, g2, g3⟩ := applyOrderBySpec_fields q s
    exact ⟨h1.trans g1, h2.trans g2, h3.trans g3⟩

/-- A successful option-mapping entry never adds a filter. -/
theorem applyOptEntry_wheres (q : Query) (k : String) (v : QVal)
    (q2 : Query) (h : applyOptEntry q k v = some q2) :
    q2.wheres = q.wheres := by
  unfold applyOptEntry at h
  split at h
  · split at h
    · exact Option.noConfusion h
    · cases h
      exact (applyOrderBySpec_fields q _).1
    · cases h
      exact (foldl_applyOrderBySpec_fields _ q).1
    · exact Option.noConfusion h
    · cases h; rfl
  · split at h
    · cases h; rfl
    · exact Option.noConfusion h
  · split at h
    · cases h; rfl
    · exact Option.noConfusion h
  · cases h; rfl
  · cases h; rfl
  · cases h; rfl
  · cases h; rfl
  · cases h; rfl

/-- Processing a whole final options mapping never adds a filter. -/
theorem applyLastMapEntries_wheres (entries : GoMap) (q q2 : Query)
    (h : applyLastMapEntries q entries = some q2) :
    q2.wheres = q.wheres := by
  induction entries generalizing q with
  | nil =>
    rw [applyLastMapEntries, List.foldlM_nil] at h
    cases h
    rfl
  | cons kv rest ih =>
    rw [applyLastMapEntries, List.foldlM_cons] at h
    cases h2 : applyOptEntry q kv.1 kv.2 with
    | none =>
      rw [h2] at h
      exact Option.noConfusion h
    | some qmid =>
      rw [h2] at h
      simp only [Option.bind_eq_bind, Option.some_bind] at h
      exact (ih qmid h).trans (applyOptEntry_wheres q kv.1 kv.2 qmid h2)

/-! ## Claims C3, C4, C10 -/

/-- C3: when the final element of a condition sequence is a mapping,
`MakeQuery` treats it as the options mapping: processing it adds no
filter to the query; each key is interpreted case-insensitively (two keys
with the same lower-casing are handled identically); and every key whose
lower-casing is outside the recognized set
{orderBy, limit, offset, startAt, startAfter, endAt, endBefore} is
silently ignored, leaving the query unchanged. -/
theorem makeQuery_final_map_modifiers :
    (∀ (conds : List Cond) (entries : GoMap),
      makeQuery (conds ++ [.mp entries]) =
        (conds.foldlM applyCondNonLast emptyQuery).bind
          (fun q => applyLastMapEntries q entries)) ∧
    (∀ (entries : GoMap) (q q2 : Query),
      applyLastMapEntries q entries = some q2 → q2.wheres = q.wheres) ∧
    (∀ (q : Query) (v : QVal) (k k2 : String),
      goToLower k = goToLower k2 →
        applyOptEntry q k v = applyOptEntry q k2 v) ∧
    (∀ (q : Query) (v : QVal) (k : String),
      goToLower k ∉ recognizedOptKeys → applyOptEntry q k v = some q) := by
  refine ⟨?_, ?_, ?_, ?_⟩
  · intro conds entries
    rw [makeQuery, applyConds_concat]
    rfl
  · intro entries q q2 h
    exact applyLastMapEntries_wheres entries q q2 h
  · intro q v k k2 h
    unfold applyOptEntry
    rw [h]
  · intro q v k h
    simp only [recognizedOptKeys, List.mem_cons, List.not_mem_nil] at h
    push_neg at h
    obtain ⟨h1, h2, h3, h4, h5, h6, h7, _⟩ := h
    unfold applyOptEntry
    split <;> simp_all

/-- Witness for C3 at concrete inputs: an `orderBy` entry adds no filter,
`LIMIT` behaves as `limit`, and an unrecognized key is ignored. -/
theorem makeQuery_final_map_modifiers_witness :
    ({ emptyQuery with qLimit := some 9 } : Query).wheres = emptyQuery.wheres ∧
    applyOptEntry emptyQuery "LIMIT" (.vint 9) =
      applyOptEntry emptyQuery "limit" (.vint 9) ∧
    applyOptEntry emptyQuery "pageSize" (.vint 9) = some emptyQuery :=
  ⟨makeQuery_final_map_modifiers.2.1 [("limit", .vint 9)] emptyQuery
      { emptyQuery with qLimit := some 9 } (by decide),
   makeQuery_final_map_modifiers.2.2.1 emptyQuery (.vint 9) "LIMIT" "limit"
      (by decide),
   makeQuery_final_map_modifiers.2.2.2 emptyQuery (.vint 9) "pageSize"
      (by decide)⟩

/-- C4: a mapping clause in non-final position contributes one equality
filter `key == value` per entry to the accumulating query and no query
modifier; in particular a non-final `{"limit": n}` becomes a filter on a
field named "limit" and leaves the query's limit untouched. -/
theorem makeQuery_nonfinal_map_equality_filters :
    (∀ (q : Query) (entries : GoMap) (c : Cond) (rest : List Cond),
      applyConds q (.mp entries :: c :: rest) =
        applyConds
          (entries.foldl (fun acc kv => acc.whereF kv.1 "==" kv.2) q)
          (c :: rest)) ∧
    (∀ (q : Query) (n : Int),
      applyCondNonLast q (.mp [("limit", .vint n)]) =
        some (q.whereF "limit" "==" (.vint n))) ∧
    (∀ (q : Query) (n : Int),
      (q.whereF "limit" "==" (.vint n)).qLimit = q.qLimit) := by
  refine ⟨?_, ?_, ?_⟩
  · intro q entries c rest
    rfl
  · intro q n
    rfl
  · intro q n
    rfl

/-- C10: `Paginate` dereferences the last element of the condition
sequence unconditionally, so an empty sequence makes it fail immediately
(the out-of-range panic, `none`) for every page geometry, while any
non-empty sequence proceeds; `MakeQuery` by contrast accepts the empty
sequence and compiles it to the unfiltered query. -/
theorem paginate_empty_panics_makeQuery_accepts :
    (∀ (page perPage : Int), paginateConds [] page perPage = none) ∧
    makeQuery [] = some emptyQuery ∧
    (∀ (conds : List Cond) (page perPage : Int),
      conds ≠ [] → (paginateConds conds page perPage).isSome = true) := by
  refine ⟨?_, rfl, ?_⟩
  · intro page perPage
    rfl
  · intro conds page perPage h
    rw [paginateConds]
    rcases h2 : conds.getLast? with _ | lc
    · rw [List.getLast?_eq_none_iff] at h2
      exact absurd h2 h
    · cases lc <;> simp

/-- Witness for C10 at a concrete non-empty condition sequence. -/
theorem paginate_empty_panics_makeQuery_accepts_witness :
    (paginateConds [Cond.slice [.vstr "a", .vstr "==", .vint 1]] 2 25).isSome
      = true :=
  paginate_empty_panics_makeQuery_accepts.2.2
    [Cond.slice [.vstr "a", .vstr "==", .vint 1]] 2 25 (by decide)

/-! ## Claim C6: pagination geometry -/

/-- Compiling a condition sequence that ends in a mapping means
compiling the prefix and then processing the mapping as the options
mapping on the intermediate query. -/
theorem makeQuery_concat_mp (l : List Cond) (m : GoMap) (q : Query)
    (h : makeQuery (l ++ [.mp m]) = some q) :
    ∃ q1, applyLastMapEntries q1 m = some q := by
  rw [makeQuery, applyConds_concat] at h
  cases hl : List.foldlM applyCondNonLast emptyQuery l with
  | none =>
    rw [hl] at h
    simp at h
  | some q1 =>
    rw [hl] at h
    simp only [Option.some_bind] at h
    exact ⟨q1, h⟩

/-- A final options mapping whose entries end in `limit`/`offset` pins
the compiled query's limit and offset, whatever came before. -/
theorem lastEntries_limit_offset (l1 : GoMap) (a b : Int) (q q2 : Query)
    (h : applyLastMapEntries q
      (l1 ++ [("limit", .vint a), ("offset", .vint b)]) = some q2) :
    q2.qLimit = some a ∧ q2.qOffset = some b := by
  rw [applyLastMapEntries, List.foldlM_append] at h
  cases hl1 : List.foldlM (fun acc kv => applyOptEntry acc kv.1 kv.2) q l1 with
  | none =>
    rw [hl1] at h
    simp at h
  | some qa =>
    rw [hl1] at h
    simp only [Option.bind_eq_bind, Option.some_bind] at h
    have hstep : List.foldlM (fun acc kv => applyOptEntry acc kv.1 kv.2) qa
        [("limit", QVal.vint a), ("offset", QVal.vint b)] =
        some { qa with qLimit := some a, qOffset := some b } := rfl
    rw [hstep] at h
    cases h
    exact ⟨rfl, rfl⟩

/-- A final options mapping ending in a `limit` entry pins the compiled
query's limit. -/
theorem lastEntries_limit (l1 : GoMap) (n : Int) (q q2 : Query)
    (h : applyLastMapEntries q (l1 ++ [("limit", .vint n)]) = some q2) :
    q2.qLimit = some n := by
  rw [applyLastMapEntries, List.foldlM_append] at h
  cases hl1 : List.foldlM (fun acc kv => applyOptEntry acc kv.1 kv.2) q l1 with
  | none =>
    rw [hl1] at h
    simp at h
  | some qa =>
    rw [hl1] at h
    simp only [Option.bind_eq_bind, Option.some_bind] at h
    have hstep : List.foldlM (fun acc kv => applyOptEntry acc kv.1 kv.2) qa
        [("limit", QVal.vint n)] = some { qa with qLimit := some n } := rfl
    rw [hstep] at h
    cases h
    rfl

/-- Go map iteration order is unspecified, so the model fixes one; this
well-formedness check rules out the mappings on which real executions
could disagree with the fixed order: any key that lower-cases to
`limit`/`offset` must be spelled exactly `limit`/`offset`. -/
def pageKeyWfB (entries : GoMap) : Bool :=
  entries.all (fun kv =>
    (goToLower kv.1 != "limit" || kv.1 == "limit") &&
    (goToLower kv.1 != "offset" || kv.1 == "offset"))

/-- C6: with `page = 2` and `perPage = 25`, `Paginate` compiles a query
with offset 25 and limit 25 (for a condition ending in a filter clause,
and for one ending in an options mapping with unambiguous keys); and
`PaginateWithCount`'s `totalPage` is `count/perPage` rounded up — the
least integer `t` with `count ≤ t·perPage` — so `count = 60`, `perPage =
25` yields `totalPage = 3`. -/
theorem paginate_page2_perPage25_and_totalPage :
    (∀ (pre : List Cond) (elems : List QVal) (q : Query),
      paginateQuery (pre ++ [.slice elems]) 2 25 = some q →
      q.qLimit = some 25 ∧ q.qOffset = some 25) ∧
    (∀ (pre : List Cond) (entries : GoMap) (q : Query),
      pageKeyWfB entries = true →
      paginateQuery (pre ++ [.mp entries]) 2 25 = some q →
      q.qLimit = some 25 ∧ q.qOffset = some 25) ∧
    (∀ count perPage : Int, 0 ≤ count → 0 < perPage →
      perPage * (totalPageOf count perPage - 1) < count ∧
      count ≤ perPage * totalPageOf count perPage) ∧
    totalPageOf 60 25 = 3 := by
  refine ⟨?_, ?_, ?_, by decide⟩
  · intro pre elems q h
    have hpc : paginateConds (pre ++ [Cond.slice elems]) 2 25 =
        some ((pre ++ [Cond.slice elems]) ++
          [Cond.mp [("limit", QVal.vint 25), ("offset", QVal.vint 25)]],
          2, 25) := by
      rw [paginateConds]
      norm_num [List.getLast?_concat]
    rw [paginateQuery, hpc] at h
    obtain ⟨q1, h1⟩ := makeQuery_concat_mp _ _ _ h
    exact lastEntries_limit_offset [] 25 25 q1 q h1
  · intro pre entries q hwf h
    have hpc : paginateConds (pre ++ [Cond.mp entries]) 2 25 =
        some (pre ++ [Cond.mp (assign entries
          [("limit", QVal.vint 25), ("offset", QVal.vint 25)])], 2, 25) := by
      rw [paginateConds]
      norm_num [List.getLast?_concat, List.dropLast_concat]
    rw [paginateQuery, hpc] at h
    obtain ⟨q1, h1⟩ := makeQuery_concat_mp _ _ _ h
    rw [assign] at h1
    exact lastEntries_limit_offset _ 25 25 q1 q h1
  · intro count perPage hc hp
    rw [totalPageOf, Int.tmod_eq_emod hc (le_of_lt hp),
      Int.tdiv_eq_ediv hc (le_of_lt hp)]
    have h1 : perPage * (count / perPage) + count % perPage = count :=
      Int.ediv_add_emod count perPage
    have h2 : 0 ≤ count % perPage := Int.emod_nonneg count (ne_of_gt hp)
    have h3 : count % perPage < perPage := Int.emod_lt_of_pos count hp
    by_cases hr : count % perPage = 0
    · rw [if_pos hr]
      constructor
      · have e1 : perPage * (count / perPage - 1) =
            perPage * (count / perPage) - perPage := by ring
        rw [e1]
        linarith
      · linarith
    · rw [if_neg hr]
      have h4 : 0 < count % perPage := lt_of_le_of_ne h2 (Ne.symm hr)
      constructor
      · have e1 : perPage * (count / perPage + 1 - 1) =
            perPage * (count / perPage) := by ring
        rw [e1]
        linarith
      · have e1 : perPage * (count / perPage + 1) =
            perPage * (count / perPage) + perPage := by ring
        rw [e1]
        linarith

/-- Witness for C6 at concrete inputs: one filter-ending and one
mapping-ending condition sequence, and the 60-documents bound. -/
theorem paginate_page2_perPage25_and_totalPage_witness :
    ((⟨[("a", "==", .vint 1)], [], some 25, some 25,
        none, none, none, none⟩ : Query).qLimit = some 25 ∧
      (⟨[("a", "==", .vint 1)], [], some 25, some 25,
        none, none, none, none⟩ : Query).qOffset = some 25) ∧
    ((⟨[], [], some 25, some 25,
        some (.vint 3), none, none, none⟩ : Query).qLimit = some 25 ∧
      (⟨[], [], some 25, some 25,
        some (.vint 3), none, none, none⟩ : Query).qOffset = some 25) ∧
    (25 * (totalPageOf 60 25 - 1) < 60 ∧ 60 ≤ 25 * totalPageOf 60 25) :=
  ⟨paginate_page2_perPage25_and_totalPage.1
      [] [.vstr "a", .vstr "==", .vint 1] _ (by decide),
   paginate_page2_perPage25_and_totalPage.2.1
      [] [("startAt", .vint 3)] _ (by decide) (by decide),
   paginate_page2_perPage25_and_totalPage.2.2.1 60 25 (by decide) (by decide)⟩

/-! ## Claim C7: `CountDocs` and trailing options mappings -/

/-- Whether a condition sequence ends in a mapping clause. -/
def endsInMp (conds : List Cond) : Bool :=
  match conds.getLast? with
  | some (.mp _) => true
  | _ => false

/-- Counterexample to C7 as stated: for the sequence `[{}]` consisting of
a single (empty) options mapping, `CountDocs` drops the mapping and
counts the whole collection, while on the sequence with the trailing
mapping removed — the empty sequence — it fails (`lo.Last` errors), so
the two calls do not return the same count. -/
theorem countDocs_trailing_map_counterexample :
    ¬ (countDocsModel [Cond.mp []] (fun _ => 0) =
        countDocsModel [] (fun _ => 0)) := by
  decide

/-- C7 (amended): the contents of a trailing options mapping never affect
`CountDocs` — two sequences differing only in their trailing mapping
count identically — and, provided the remaining sequence is non-empty and
does not itself end in a mapping, `CountDocs` with the trailing mapping
equals `CountDocs` without it; hence `PaginateWithCount`'s count is the
total over all pages, not the size of one page. -/
theorem countDocs_ignores_trailing_map :
    (∀ (conds : List Cond) (m m2 : GoMap) (agg : Query → Int),
      countDocsModel (conds ++ [.mp m]) agg =
        countDocsModel (conds ++ [.mp m2]) agg) ∧
    (∀ (conds : List Cond) (m : GoMap) (agg : Query → Int),
      conds ≠ [] → endsInMp conds = false →
      countDocsModel (conds ++ [.mp m]) agg = countDocsModel conds agg) := by
  have hdrop : ∀ (conds : List Cond) (m : GoMap) (agg : Query → Int),
      countDocsModel (conds ++ [.mp m]) agg =
        (match makeQuery conds with
          | none => none
          | some q => some (.ok (agg q))) := by
    intro conds m agg
    rw [countDocsModel, countConds]
    rw [List.getLast?_concat]
    simp [List.dropLast_concat]
  refine ⟨?_, ?_⟩
  · intro conds m m2 agg
    rw [hdrop, hdrop]
  · intro conds m agg hne hmp
    rw [hdrop]
    rw [countDocsModel, countConds]
    rcases h2 : conds.getLast? with _ | lc
    · rw [List.getLast?_eq_none_iff] at h2
      exact absurd h2 hne
    · rw [endsInMp, h2] at hmp
      cases lc with
      | mp entries => simp at hmp
      | slice elems => rfl

/-- Witness for C7's amended theorem at a concrete filter-only prefix. -/
theorem countDocs_ignores_trailing_map_witness :
    countDocsModel
        ([Cond.slice [.vstr "a", .vstr "==", .vint 1]] ++
          [Cond.mp [("limit", .vint 5)]]) (fun _ => 7) =
      countDocsModel [Cond.slice [.vstr "a", .vstr "==", .vint 1]]
        (fun _ => 7) :=
  countDocs_ignores_trailing_map.2
    [Cond.slice [.vstr "a", .vstr "==", .vint 1]]
    [("limit", .vint 5)] (fun _ => 7) (by decide) (by decide)

/-! ## Claim C8: `GetDoc` error translation -/

/-- Counterexample to C8 as stated: the source's message prefix is
`"doc not found: "`, not `"document not found: "` — at a concrete client
that reports `codes.NotFound`, `GetDoc` does not produce the claimed
"document not found: `<id>`" condition. -/
theorem getDoc_notFound_message_counterexample :
    ¬ (getDocModel (fun _ => .error ⟨notFoundCode, "rpc"⟩) "x" =
        .error (.newErr ("document not found: " ++ "x"))) := by
  decide

/-- C8 (amended): a `codes.NotFound` client error is translated into the
descriptive `errors.New` condition "doc not found: `<id>`" containing the
requested id, while every other retrieval error propagates to the caller
unchanged. -/
theorem getDoc_error_translation :
    ∀ (get : String → Except GrpcErr DocSnap) (docId : String) (e : GrpcErr),
      get docId = .error e →
      (e.code = notFoundCode →
        getDocModel get docId = .error (.newErr ("doc not found: " ++ docId))) ∧
      (e.code ≠ notFoundCode →
        getDocModel get docId = .error (.grpc e)) := by
  intro get docId e h
  constructor
  · intro hc
    simp only [getDocModel, h]
    rw [if_pos hc]
  · intro hc
    simp only [getDocModel, h]
    rw [if_neg hc]

/-- Witness for C8: the not-found branch and the pass-through branch at
concrete clients. -/
theorem getDoc_error_translation_witness :
    getDocModel (fun _ => .error ⟨notFoundCode, "rpc"⟩) "x" =
      .error (.newErr ("doc not found: " ++ "x")) ∧
    getDocModel (fun _ => .error ⟨13, "internal"⟩) "x" =
      .error (.grpc ⟨13, "internal"⟩) :=
  ⟨(getDoc_error_translation (fun _ => .error ⟨notFoundCode, "rpc"⟩) "x"
      ⟨notFoundCode, "rpc"⟩ rfl).1 rfl,
   (getDoc_error_translation (fun _ => .error ⟨13, "internal"⟩) "x"
      ⟨13, "internal"⟩ rfl).2 (by decide)⟩

/-! ## Claim C9: `FindDoc` -/

/-- The `pageKeyWfB` analogue for `FindDoc`: no key other than `limit`
itself may lower-case to `limit` (Go map iteration order is unspecified;
see `assign`). -/
def limitKeyWfB (entries : GoMap) : Bool :=
  entries.all (fun kv => goToLower kv.1 != "limit" || kv.1 == "limit")

/-- C9: `FindDoc` forces a limit of one onto the condition sequence —
appending a `{"limit": 1}` options mapping after a filter clause, or
writing `limit = 1` into an existing final mapping — so the compiled
query's limit is 1; it returns the first document of the query's result,
and when no document matches it returns a `nil` document together with a
`nil` error rather than a "not found" error. -/
theorem findDoc_forces_limit_one :
    ∀ (conds conds2 : List Cond) (q : Query)
      (runQuery : Query → Except GoErr (List GoMap)),
      findDocConds conds = .ok conds2 →
      makeQuery conds2 = some q →
      ((match conds.getLast? with
        | some (.mp entries) => limitKeyWfB entries
        | _ => true) = true → q.qLimit = some 1) ∧
      findDocModel conds runQuery =
        some (match runQuery q with
          | .error e => .error e
          | .ok [] => .ok none
          | .ok (d :: _) => .ok (some d)) := by
  intro conds conds2 q runQuery h1 h2
  constructor
  · intro _
    rw [findDocConds] at h1
    rcases hl : conds.getLast? with _ | lc
    · rw [hl] at h1
      exact Except.noConfusion h1
    · rw [hl] at h1
      cases lc with
      | slice elems =>
        cases h1
        obtain ⟨q1, hq1⟩ := makeQuery_concat_mp _ _ _ h2
        exact lastEntries_limit [] 1 q1 q hq1
      | mp entries =>
        cases h1
        obtain ⟨q1, hq1⟩ := makeQuery_concat_mp _ _ _ h2
        rw [mapSet, assign] at hq1
        exact lastEntries_limit _ 1 q1 q hq1
  · simp only [findDocModel, h1, h2]
    cases hr : runQuery q with
    | error e => rfl
    | ok docs => cases docs <;> rfl

/-- Witness for C9: a one-filter condition; the forced query has limit 1
and an empty result yields `nil` document, `nil` error. -/
theorem findDoc_forces_limit_one_witness :
    (⟨[("a", "==", .vint 1)], [], some 1, none, none, none, none, none⟩ :
        Query).qLimit = some 1 ∧
    findDocModel [Cond.slice [.vstr "a", .vstr "==", .vint 1]]
        (fun _ => .ok []) = some (.ok none) :=
  ⟨(findDoc_forces_limit_one
      [Cond.slice [.vstr "a", .vstr "==", .vint 1]]
      ([Cond.slice [.vstr "a", .vstr "==", .vint 1]] ++
        [.mp [("limit", .vint 1)]])
      ⟨[("a", "==", .vint 1)], [], some 1, none, none, none, none, none⟩
      (fun _ => .ok []) (by decide) (by decide)).1 (by decide),
   (findDoc_forces_limit_one
      [Cond.slice [.vstr "a", .vstr "==", .vint 1]]
      ([Cond.slice [.vstr "a", .vstr "==", .vint 1]] ++
        [.mp [("limit", .vint 1)]])
      ⟨[("a", "==", .vint 1)], [], some 1, none, none, none, none, none⟩
      (fun _ => .ok []) (by decide) (by decide)).2⟩

/-! ## Claim C5: `BatchDocs` error accumulation -/

/-- The group fold of `BatchDocs` characterized declaratively: the
results are the concatenated outcomes of exactly the groups whose
submission reported no error, and the error list collects every group
error, in order. -/
theorem batchDocs_foldl_char {W E : Type}
    (submit : List GoMap → List W × Option E) :
    ∀ (groups : List (List GoMap)) (acc : List W × List E),
      groups.foldl
        (fun acc g =>
          match submit g with
          | (_, some e) => (acc.1, acc.2 ++ [e])
          | (results, none) => (acc.1 ++ results, acc.2)) acc =
      (acc.1 ++
        (groups.filter (fun g => ((submit g).2).isNone)).flatMap
          (fun g => (submit g).1),
       acc.2 ++ groups.filterMap (fun g => (submit g).2)) := by
  intro groups
  induction groups with
  | nil => simp
  | cons g gs ih =>
    intro acc
    rcases hs : submit g with ⟨rs, err⟩
    cases err with
    | none =>
      simp [List.foldl_cons, hs, ih, List.filter_cons, List.filterMap_cons]
    | some e =>
      simp [List.foldl_cons, hs, ih, List.filter_cons, List.filterMap_cons]

/-- C5: a failed group submission does not abort `BatchDocs` — for a
non-empty document set, the call returns the write outcomes of exactly
the groups that reported no error, concatenated in order, together with
every group error accumulated into the joined error value (the empty
list standing for a `nil` joined error). -/
theorem batchDocs_partial_failure :
    ∀ {W E : Type} (docs : List GoMap)
      (submit : List GoMap → List W × Option E),
      docs ≠ [] →
      batchDocsModel docs submit = .ok
        (((chunk500 docs).filter
            (fun g => ((submit g).2).isNone)).flatMap (fun g => (submit g).1),
         (chunk500 docs).filterMap (fun g => (submit g).2)) := by
  intro W E docs submit h
  rw [batchDocsModel, if_neg (by simpa using h)]
  rw [batchDocs_foldl_char]
  simp

/-- Witness for C5: a single group whose submission fails — its partial
results are dropped, its error is collected, and the call still returns
`ok`. -/
theorem batchDocs_partial_failure_witness :
    batchDocsModel [[("id", .vstr "a")]]
        (fun _ => (([1, 2] : List Nat), some "boom")) =
      .ok ([], ["boom"]) :=
  batchDocs_partial_failure [[("id", .vstr "a")]]
    (fun _ => (([1, 2] : List Nat), some "boom")) (by decide)

/-! ## Claim C1: the update delta -/

/-- Where Go's `==` on two `any` values is defined, it decides equality of
the values. -/
theorem goEq_spec (a b : QVal) (c : Bool) (h : goEq a b = some c) :
    c = true ↔ a = b := by
  cases a <;> cases b <;>
    first
      | exact Option.noConfusion h
      | (injection h with h2; subst h2; simp)

/-- The field loop of `makeUpdateData`, characterized against the
spec-level delta: as long as every comparison it performs is defined, it
appends exactly the spec-level delta of the remaining fields. -/
theorem makeUpdateData_foldl_char (after : GoMap) :
    ∀ (l : GoMap) (acc : List FsUpdate),
      (∀ kv ∈ l, kv.1 ≠ idFieldName →
        (goEq (goIndex after kv.1) kv.2).isSome = true) →
      l.foldlM
        (fun acc kv =>
          if kv.1 = idFieldName then some acc
          else
            match goEq (goIndex after kv.1) kv.2 with
            | none => none
            | some true => some acc
            | some false => some (acc ++ [⟨kv.1, goIndex after kv.1⟩])) acc =
        some (acc ++ specDelta l after) := by
  intro l
  induction l with
  | nil =>
    intro acc _
    simp [specDelta]
  | cons kv rest ih =>
    intro acc hcmp
    have hrest : ∀ kv2 ∈ rest, kv2.1 ≠ idFieldName →
        (goEq (goIndex after kv2.1) kv2.2).isSome = true :=
      fun kv2 h2 => hcmp kv2 (List.mem_cons_of_mem _ h2)
    simp only [List.foldlM_cons]
    by_cases hid : kv.1 = idFieldName
    · rw [if_pos hid]
      simp only [Option.bind_eq_bind, Option.some_bind]
      rw [ih acc hrest]
      have hdel : specDelta (kv :: rest) after = specDelta rest after := by
        simp [specDelta, List.filter_cons, hid]
      rw [hdel]
    · rw [if_neg hid]
      have hs : (goEq (goIndex after kv.1) kv.2).isSome = true :=
        hcmp kv (List.mem_cons_self _ _) hid
      cases hq : goEq (goIndex after kv.1) kv.2 with
      | none =>
        rw [hq] at hs
        simp at hs
      | some b =>
        cases b with
        | true =>
          have heq : goIndex after kv.1 = kv.2 := (goEq_spec _ _ _ hq).mp rfl
          simp only [hq]
          simp only [Option.bind_eq_bind, Option.some_bind]
          rw [ih acc hrest]
          have hdel : specDelta (kv :: rest) after = specDelta rest after := by
            simp [specDelta, List.filter_cons, heq]
          rw [hdel]
        | false =>
          have hne : goIndex after kv.1 ≠ kv.2 := by
            intro hcon
            have hfalse := (goEq_spec _ _ _ hq).mpr hcon
            simp at hfalse
          simp only [hq]
          simp only [Option.bind_eq_bind, Option.some_bind]
          rw [ih (acc ++ [(⟨kv.1, goIndex after kv.1⟩ : FsUpdate)]) hrest]
          have hdel : specDelta (kv :: rest) after =
              ⟨kv.1, goIndex after kv.1⟩ :: specDelta rest after := by
            simp [specDelta, List.filter_cons, hid, hne]
          rw [hdel]
          simp

/-- Counterexample to C1 as stated: on a document with a map-valued field
that the transform leaves a map, the comparison `newVal != oldVal` in
`makeUpdateData` panics at run time (Go comparison of two interface
values of an identical uncomparable dynamic type), so no delta is
computed at all — while the claim's delta for this document is empty and
the document should have been skipped. -/
theorem makeUpdateData_panic_counterexample :
    makeUpdateData [("id", .vstr "1"), ("m", .vmap 0)]
        (some (fun d => d)) = none ∧
    ¬ (makeUpdateData [("id", .vstr "1"), ("m", .vmap 0)]
          (some (fun d => d)) =
        some (specDelta [("id", .vstr "1"), ("m", .vmap 0)]
          ((fun (d : GoMap) => d) [("id", .vstr "1"), ("m", .vmap 0)]))) := by
  constructor
  · rfl
  · decide

/-- C1 (amended): for every document whose field-by-field comparisons are
all defined — no field other than `id` on which the original value and
the transformed value are composites of the same dynamic kind — the
computed update delta equals the set of fields of the original document
whose value differs between the original and its transformed deep copy,
excluding the identifier field `id`, each paired with its new value; and
a document whose delta is empty (and whose `id` field is a string) is
skipped by the batch loop: no write job is issued for it. -/
theorem makeUpdateData_matches_specDelta :
    ∀ (doc : GoMap) (f : GoMap → GoMap) (now : QVal),
      (∀ kv ∈ doc, kv.1 ≠ idFieldName →
        (goEq (goIndex (f doc) kv.1) kv.2).isSome = true) →
      makeUpdateData doc (some f) = some (specDelta doc (f doc)) ∧
      (specDelta doc (f doc) = [] →
        ∀ s, List.lookup idFieldName doc = some (.vstr s) →
          buildJobs [doc] (some f) now = some []) := by
  intro doc f now hcmp
  have h1 : makeUpdateData doc (some f) = some (specDelta doc (f doc)) := by
    rw [makeUpdateData]
    have := makeUpdateData_foldl_char (f doc) doc [] hcmp
    simpa using this
  refine ⟨h1, ?_⟩
  intro hdelta s hid
  simp [buildJobs, hid, h1, hdelta]

/-- Witness for C1's amended theorem: an unchanged two-field document —
the delta is empty and no job is issued. -/
theorem makeUpdateData_matches_specDelta_witness :
    makeUpdateData [("id", .vstr "1"), ("a", .vint 1)]
        (some (fun _ => [("id", .vstr "1"), ("a", .vint 1)])) = some [] ∧
    buildJobs [[("id", .vstr "1"), ("a", .vint 1)]]
        (some (fun _ => [("id", .vstr "1"), ("a", .vint 1)]))
        (.vstr "t") = some [] :=
  ⟨(makeUpdateData_matches_specDelta
      [("id", .vstr "1"), ("a", .vint 1)]
      (fun _ => [("id", .vstr "1"), ("a", .vint 1)])
      (.vstr "t") (by decide)).1,
   (makeUpdateData_matches_specDelta
      [("id", .vstr "1"), ("a", .vint 1)]
      (fun _ => [("id", .vstr "1"), ("a", .vint 1)])
      (.vstr "t") (by decide)).2 (by decide) "1" rfl⟩

/-! ## Claim C2: lemmas about the heap model -/

theorem Heap.get_extend {h : Heap} {ext : List HObj} {a : Nat} {o : HObj}
    (hg : h.get a = some o) :
    (⟨h.cells ++ ext⟩ : Heap).get a = some o := by
  rw [Heap.get] at hg ⊢
  have hlt : a < h.cells.length := (List.getElem?_eq_some_iff.mp hg).1
  rw [List.getElem?_append_left hlt]
  exact hg

theorem Heap.get_put_ne {h : Heap} {b : Nat} {o : HObj} {a : Nat}
    (hne : b ≠ a) : (h.put b o).get a = h.get a := by
  rw [Heap.put, Heap.get, Heap.get]
  exact List.getElem?_set_ne hne

theorem Heap.get_last {h : Heap} {o : HObj} :
    (⟨h.cells ++ [o]⟩ : Heap).get h.cells.length = some o := by
  rw [Heap.get]
  exact List.getElem?_concat_length _ _

/-- `readV` is preserved by passing to a heap that agrees on every
defined cell. -/
theorem readV_mono :
    ∀ (fuel : Nat) (h h2 : Heap),
      (∀ a o, h.get a = some o → h2.get a = some o) →
      ∀ v p, readV fuel h v = some p → readV fuel h2 v = some p := by
  have hentries : ∀ (f : Nat) (h h2 : Heap),
      (∀ v p, readV f h v = some p → readV f h2 v = some p) →
      ∀ entries ps, readEntries f h entries = some ps →
        readEntries f h2 entries = some ps := by
    intro f h h2 hv entries
    induction entries with
    | nil =>
      intro ps hr
      simpa [readEntries] using hr
    | cons kv rest ihe =>
      rcases kv with ⟨k, v⟩
      intro ps hr
      rw [readEntries] at hr ⊢
      cases hv1 : readV f h v with
      | none => rw [hv1] at hr; exact Option.noConfusion hr
      | some p1 =>
        rw [hv1] at hr
        rw [hv v p1 hv1]
        cases hrest : readEntries f h rest with
        | none => rw [hrest] at hr; exact Option.noConfusion hr
        | some ps1 =>
          rw [hrest] at hr
          rw [ihe ps1 hrest]
          exact hr
  have helems : ∀ (f : Nat) (h h2 : Heap),
      (∀ v p, readV f h v = some p → readV f h2 v = some p) →
      ∀ elems ps, readElems f h elems = some ps →
        readElems f h2 elems = some ps := by
    intro f h h2 hv elems
    induction elems with
    | nil =>
      intro ps hr
      simpa [readElems] using hr
    | cons v rest ihe =>
      intro ps hr
      rw [readElems] at hr ⊢
      cases hv1 : readV f h v with
      | none => rw [hv1] at hr; exact Option.noConfusion hr
      | some p1 =>
        rw [hv1] at hr
        rw [hv v p1 hv1]
        cases hrest : readElems f h rest with
        | none => rw [hrest] at hr; exact Option.noConfusion hr
        | some ps1 =>
          rw [hrest] at hr
          rw [ihe ps1 hrest]
          exact hr
  intro fuel
  induction fuel with
  | zero =>
    intro h h2 hsub v p hr
    cases v with
    | prim q => simpa [readV] using hr
    | href a => simp [readV] at hr
  | succ f ih =>
    intro h h2 hsub v p hr
    cases v with
    | prim q => simpa [readV] using hr
    | href a =>
      rw [readV] at hr ⊢
      cases hg : h.get a with
      | none => rw [hg] at hr; exact Option.noConfusion hr
      | some obj =>
        rw [hg] at hr
        rw [hsub a obj hg]
        cases obj with
        | hmap entries =>
          simp only [Option.map_eq_some'] at hr
          obtain ⟨ps, hps, hp⟩ := hr
          simp only [Option.map_eq_some']
          exact ⟨ps, hentries f h h2 (ih h h2 hsub) entries ps hps, hp⟩
        | hslice elems =>
          simp only [Option.map_eq_some'] at hr
          obtain ⟨ps, hps, hp⟩ := hr
          simp only [Option.map_eq_some']
          exact ⟨ps, helems f h h2 (ih h h2 hsub) elems ps hps, hp⟩

/-- `readV` into a heap extended with fresh cells. -/
theorem readV_extend {fuel : Nat} {h : Heap} {ext : List HObj} {v : HVal}
    {p : PVal} (hr : readV fuel h v = some p) :
    readV fuel (⟨h.cells ++ ext⟩ : Heap) v = some p :=
  readV_mono fuel h ⟨h.cells ++ ext⟩ (fun _ _ hg => Heap.get_extend hg) v p hr

/-- If every cell at an address satisfying `P` only references addresses
satisfying `P`, then reachability from a value whose direct references
satisfy `P` stays inside `P`. -/
theorem reach_closed (P : Nat → Prop) :
    ∀ (fuel : Nat) (h : Heap),
      (∀ a, P a → ∀ o, h.get a = some o → ∀ b ∈ refsOfObj o, P b) →
      ∀ v, (∀ b ∈ refsOfV v, P b) → ∀ b ∈ reachV fuel h v, P b := by
  have hentries : ∀ (f : Nat) (h : Heap),
      (∀ v, (∀ b ∈ refsOfV v, P b) → ∀ b ∈ reachV f h v, P b) →
      ∀ entries, (∀ b ∈ refsOfObj (.hmap entries), P b) →
        ∀ b ∈ reachEntries f h entries, P b := by
    intro f h hv entries
    induction entries with
    | nil =>
      intro _ b hb
      simp [reachEntries] at hb
    | cons kv rest ihe =>
      rcases kv with ⟨k, v⟩
      intro hrefs b hb
      rw [reachEntries] at hb
      rcases List.mem_append.mp hb with hb1 | hb2
      · refine hv v ?_ b hb1
        intro b2 hb2
        exact hrefs b2 (by simp [refsOfObj]; exact Or.inl hb2)
      · refine ihe ?_ b hb2
        intro b2 hb2
        exact hrefs b2 (by
          simp only [refsOfObj, List.flatMap_cons, List.mem_append]
          right
          simpa [refsOfObj] using hb2)
  have helems : ∀ (f : Nat) (h : Heap),
      (∀ v, (∀ b ∈ refsOfV v, P b) → ∀ b ∈ reachV f h v, P b) →
      ∀ elems, (∀ b ∈ refsOfObj (.hslice elems), P b) →
        ∀ b ∈ reachElems f h elems, P b := by
    intro f h hv elems
    induction elems with
    | nil =>
      intro _ b hb
      simp [reachElems] at hb
    | cons v rest ihe =>
      intro hrefs b hb
      rw [reachElems] at hb
      rcases List.mem_append.mp hb with hb1 | hb2
      · refine hv v ?_ b hb1
        intro b2 hb2
        exact hrefs b2 (by simp [refsOfObj]; exact Or.inl hb2)
      · refine ihe ?_ b hb2
        intro b2 hb2
        exact hrefs b2 (by
          simp only [refsOfObj, List.flatMap_cons, List.mem_append]
          right
          simpa [refsOfObj] using hb2)
  intro fuel
  induction fuel with
  | zero =>
    intro h _ v hrefs b hb
    cases v with
    | prim q => simp [reachV] at hb
    | href a =>
      rw [reachV] at hb
      simp at hb
      subst hb
      exact hrefs b (by simp [refsOfV])
  | succ f ih =>
    intro h hcl v hrefs b hb
    cases v with
    | prim q => simp [reachV] at hb
    | href a =>
      have hPa : P a := hrefs a (by simp [refsOfV])
      rw [reachV] at hb
      rcases List.mem_cons.mp hb with rfl | hb2
      · exact hPa
      · cases hg : h.get a with
        | none =>
          rw [hg] at hb2
          simp at hb2
        | some obj =>
          rw [hg] at hb2
          have hobj := hcl a hPa obj hg
          cases obj with
          | hmap entries =>
            exact hentries f h (ih h hcl) entries hobj b hb2
          | hslice elems =>
            exact helems f h (ih h hcl) elems hobj b hb2

/-- Writing to a cell that a value does not reach leaves the value's
readout unchanged. -/
theorem readV_frame :
    ∀ (fuel : Nat) (h : Heap) (b : Nat) (o : HObj),
      ∀ v p, b ∉ reachV fuel h v → readV fuel h v = some p →
        readV fuel (h.put b o) v = some p := by
  have hentries : ∀ (f : Nat) (h : Heap) (b : Nat) (o : HObj),
      (∀ v p, b ∉ reachV f h v → readV f h v = some p →
        readV f (h.put b o) v = some p) →
      ∀ entries ps, b ∉ reachEntries f h entries →
        readEntries f h entries = some ps →
        readEntries f (h.put b o) entries = some ps := by
    intro f h b o hv entries
    induction entries with
    | nil =>
      intro ps _ hr
      simpa [readEntries] using hr
    | cons kv rest ihe =>
      rcases kv with ⟨k, v⟩
      intro ps hreach hr
      rw [reachEntries] at hreach
      rw [List.mem_append] at hreach
      push_neg at hreach
      rw [readEntries] at hr ⊢
      cases hv1 : readV f h v with
      | none => rw [hv1] at hr; exact Option.noConfusion hr
      | some p1 =>
        rw [hv1] at hr
        rw [hv v p1 hreach.1 hv1]
        cases hrest : readEntries f h rest with
        | none => rw [hrest] at hr; exact Option.noConfusion hr
        | some ps1 =>
          rw [hrest] at hr
          rw [ihe ps1 hreach.2 hrest]
          exact hr
  have helems : ∀ (f : Nat) (h : Heap) (b : Nat) (o : HObj),
      (∀ v p, b ∉ reachV f h v → readV f h v = some p →
        readV f (h.put b o) v = some p) →
      ∀ elems ps, b ∉ reachElems f h elems →
        readElems f h elems = some ps →
        readElems f (h.put b o) elems = some ps := by
    intro f h b o hv elems
    induction elems with
    | nil =>
      intro ps _ hr
      simpa [readElems] using hr
    | cons v rest ihe =>
      intro ps hreach hr
      rw [reachElems] at hreach
      rw [List.mem_append] at hreach
      push_neg at hreach
      rw [readElems] at hr ⊢
      cases hv1 : readV f h v with
      | none => rw [hv1] at hr; exact Option.noConfusion hr
      | some p1 =>
        rw [hv1] at hr
        rw [hv v p1 hreach.1 hv1]
        cases hrest : readElems f h rest with
        | none => rw [hrest] at hr; exact Option.noConfusion hr
        | some ps1 =>
          rw [hrest] at hr
          rw [ihe ps1 hreach.2 hrest]
          exact hr
  intro fuel
  induction fuel with
  | zero =>
    intro h b o v p _ hr
    cases v with
    | prim q => simpa [readV] using hr
    | href a => simp [readV] at hr
  | succ f ih =>
    intro h b o v p hreach hr
    cases v with
    | prim q => simpa [readV] using hr
    | href a =>
      rw [reachV] at hreach
      rw [List.mem_cons] at hreach
      push_neg at hreach
      obtain ⟨hba, hbin⟩ := hreach
      rw [readV] at hr ⊢
      cases hg : h.get a with
      | none => rw [hg] at hr; exact Option.noConfusion hr
      | some obj =>
        rw [hg] at hr
        rw [Heap.get_put_ne hba, hg]
        rw [hg] at hbin
        cases obj with
        | hmap entries =>
          simp only [Option.map_eq_some'] at hr
          obtain ⟨ps, hps, hp⟩ := hr
          simp only [Option.map_eq_some']
          exact ⟨ps, hentries f h b o (ih h b o) entries ps hbin hps, hp⟩
        | hslice elems =>
          simp only [Option.map_eq_some'] at hr
          obtain ⟨ps, hps, hp⟩ := hr
          simp only [Option.map_eq_some']
          exact ⟨ps, helems f h b o (ih h b o) elems ps hbin hps, hp⟩

theorem Heap.get_of_extension {h h2 : Heap} {ext : List HObj}
    (hc : h2.cells = h.cells ++ ext) {a : Nat} {o : HObj}
    (hg : h.get a = some o) : h2.get a = some o := by
  rw [Heap.get, hc]
  rw [Heap.get] at hg
  rw [List.getElem?_append_left (List.getElem?_eq_some_iff.mp hg).1]
  exact hg

/-- `readEntries` is preserved by passing to a heap that agrees on every
defined cell. -/
theorem readEntries_mono (f : Nat) (h h2 : Heap)
    (hsub : ∀ a o, h.get a = some o → h2.get a = some o) :
    ∀ entries ps, readEntries f h entries = some ps →
      readEntries f h2 entries = some ps := by
  intro entries
  induction entries with
  | nil =>
    intro ps hr
    simpa [readEntries] using hr
  | cons kv rest ihe =>
    rcases kv with ⟨k, v⟩
    intro ps hr
    rw [readEntries] at hr ⊢
    cases hv1 : readV f h v with
    | none => rw [hv1] at hr; exact Option.noConfusion hr
    | some p1 =>
      rw [hv1] at hr
      rw [readV_mono f h h2 hsub v p1 hv1]
      cases hrest : readEntries f h rest with
      | none => rw [hrest] at hr; exact Option.noConfusion hr
      | some ps1 =>
        rw [hrest] at hr
        rw [ihe ps1 hrest]
        exact hr

/-- `readElems` is preserved by passing to a heap that agrees on every
defined cell. -/
theorem readElems_mono (f : Nat) (h h2 : Heap)
    (hsub : ∀ a o, h.get a = some o → h2.get a = some o) :
    ∀ elems ps, readElems f h elems = some ps →
      readElems f h2 elems = some ps := by
  intro elems
  induction elems with
  | nil =>
    intro ps hr
    simpa [readElems] using hr
  | cons v rest ihe =>
    intro ps hr
    rw [readElems] at hr ⊢
    cases hv1 : readV f h v with
    | none => rw [hv1] at hr; exact Option.noConfusion hr
    | some p1 =>
      rw [hv1] at hr
      rw [readV_mono f h h2 hsub v p1 hv1]
      cases hrest : readElems f h rest with
      | none => rw [hrest] at hr; exact Option.noConfusion hr
      | some ps1 =>
        rw [hrest] at hr
        rw [ihe ps1 hrest]
        exact hr

/-- Appending a fresh cell whose references are all `≥ n` preserves
upward closure from `n`. -/
theorem segClosed_alloc {n : Nat} {h : Heap} {o : HObj}
    (hseg : segClosedFrom n h) (ho : ∀ b ∈ refsOfObj o, n ≤ b) :
    segClosedFrom n (⟨h.cells ++ [o]⟩ : Heap) := by
  intro a ha o2 hg b hb
  rcases lt_trichotomy a h.cells.length with hlt | heq | hgt
  · rw [Heap.get, List.getElem?_append_left hlt] at hg
    exact hseg a ha o2 hg b hb
  · subst heq
    rw [Heap.get, List.getElem?_concat_length] at hg
    cases hg
    exact ho b hb
  · rw [Heap.get, List.getElem?_eq_none (by simp; omega)] at hg
    exact Option.noConfusion hg

/-- The correctness core of `deepCopyMap`: on a heap whose cells from
address `n` on only reference addresses from `n` on, copying a readable
value only appends cells, preserves that upward closure, and returns a
value all of whose direct references lie at or above `n`. -/
theorem deepCopy_spec :
    ∀ (fuel n : Nat) (h : Heap) (v : HVal) (p : PVal),
      n ≤ h.cells.length →
      segClosedFrom n h →
      readV fuel h v = some p →
      (∃ ext, (deepCopyV fuel h v).2.cells = h.cells ++ ext) ∧
      segClosedFrom n (deepCopyV fuel h v).2 ∧
      (∀ b ∈ refsOfV (deepCopyV fuel h v).1, n ≤ b) := by
  intro fuel
  induction fuel with
  | zero =>
    intro n h v p hn hseg hr
    cases v with
    | prim q =>
      refine ⟨⟨[], by simp [deepCopyV]⟩, by simpa [deepCopyV] using hseg, ?_⟩
      simp [deepCopyV, refsOfV]
    | href a => simp [readV] at hr
  | succ f ih =>
    intro n h v p hn hseg hr
    have hentries : ∀ (h : Heap) (entries : List (String × HVal))
        (ps : List (String × PVal)),
        n ≤ h.cells.length → segClosedFrom n h →
        readEntries f h entries = some ps →
        (∃ ext, (deepCopyEntries f h entries).2.cells = h.cells ++ ext) ∧
        segClosedFrom n (deepCopyEntries f h entries).2 ∧
        (∀ kv ∈ (deepCopyEntries f h entries).1,
          ∀ b ∈ refsOfV kv.2, n ≤ b) := by
      intro h entries
      induction entries generalizing h with
      | nil =>
        intro ps hn2 hseg2 _
        refine ⟨⟨[], by simp [deepCopyEntries]⟩,
          by simpa [deepCopyEntries] using hseg2, ?_⟩
        simp [deepCopyEntries]
      | cons kv rest ihe =>
        rcases kv with ⟨k, v1⟩
        intro ps hn2 hseg2 hre
        rw [readEntries] at hre
        cases hv1 : readV f h v1 with
        | none => rw [hv1] at hre; exact Option.noConfusion hre
        | some p1 =>
          rw [hv1] at hre
          cases hrest : readEntries f h rest with
          | none => rw [hrest] at hre; exact Option.noConfusion hre
          | some ps1 =>
            obtain ⟨⟨ext1, hc1⟩, hseg3, hrefs1⟩ := ih n h v1 p1 hn2 hseg2 hv1
            have hn3 : n ≤ (deepCopyV f h v1).2.cells.length := by
              rw [hc1]
              simp
              omega
            have hsub : ∀ a o, h.get a = some o →
                (deepCopyV f h v1).2.get a = some o :=
              fun a o hg => Heap.get_of_extension hc1 hg
            have hrest2 : readEntries f (deepCopyV f h v1).2 rest = some ps1 :=
              readEntries_mono f h (deepCopyV f h v1).2 hsub rest ps1 hrest
            obtain ⟨⟨ext2, hc2⟩, hseg4, hrefs2⟩ :=
              ihe (deepCopyV f h v1).2 ps1 hn3 hseg3 hrest2
            rw [deepCopyEntries]
            refine ⟨⟨ext1 ++ ext2, ?_⟩, hseg4, ?_⟩
            · rw [hc2, hc1, List.append_assoc]
            · intro kv2 hkv2 b hb
              rcases List.mem_cons.mp hkv2 with rfl | hkv3
              · exact hrefs1 b hb
              · exact hrefs2 kv2 hkv3 b hb
    have helems : ∀ (h : Heap) (elems : List HVal) (ps : List PVal),
        n ≤ h.cells.length → segClosedFrom n h →
        readElems f h elems = some ps →
        (∃ ext, (deepCopyElems f h elems).2.cells = h.cells ++ ext) ∧
        segClosedFrom n (deepCopyElems f h elems).2 ∧
        (∀ v2 ∈ (deepCopyElems f h elems).1, ∀ b ∈ refsOfV v2, n ≤ b) := by
      intro h elems
      induction elems generalizing h with
      | nil =>
        intro ps hn2 hseg2 _
        refine ⟨⟨[], by simp [deepCopyElems]⟩,
          by simpa [deepCopyElems] using hseg2, ?_⟩
        simp [deepCopyElems]
      | cons v1 rest ihe =>
        intro ps hn2 hseg2 hre
        rw [readElems] at hre
        cases hv1 : readV f h v1 with
        | none => rw [hv1] at hre; exact Option.noConfusion hre
        | some p1 =>
          rw [hv1] at hre
          cases hrest : readElems f h rest with
          | none => rw [hrest] at hre; exact Option.noConfusion hre
          | some ps1 =>
            obtain ⟨⟨ext1, hc1⟩, hseg3, hrefs1⟩ := ih n h v1 p1 hn2 hseg2 hv1
            have hn3 : n ≤ (deepCopyV f h v1).2.cells.length := by
              rw [hc1]
              simp
              omega
            have hsub : ∀ a o, h.get a = some o →
                (deepCopyV f h v1).2.get a = some o :=
              fun a o hg => Heap.get_of_extension hc1 hg
            have hrest2 : readElems f (deepCopyV f h v1).2 rest = some ps1 :=
              readElems_mono f h (deepCopyV f h v1).2 hsub rest ps1 hrest
            obtain ⟨⟨ext2, hc2⟩, hseg4, hrefs2⟩ :=
              ihe (deepCopyV f h v1).2 ps1 hn3 hseg3 hrest2
            rw [deepCopyElems]
            refine ⟨⟨ext1 ++ ext2, ?_⟩, hseg4, ?_⟩
            · rw [hc2, hc1, List.append_assoc]
            · intro v2 hv2 b hb
              rcases List.mem_cons.mp hv2 with rfl | hv3
              · exact hrefs1 b hb
              · exact hrefs2 v2 hv3 b hb
    cases v with
    | prim q =>
      refine ⟨⟨[], by simp [deepCopyV]⟩, by simpa [deepCopyV] using hseg, ?_⟩
      simp [deepCopyV, refsOfV]
    | href a =>
      rw [readV] at hr
      cases hg : h.get a with
      | none => rw [hg] at hr; exact Option.noConfusion hr
      | some obj =>
        rw [hg] at hr
        cases obj with
        | hmap entries =>
          simp only [Option.map_eq_some'] at hr
          obtain ⟨ps, hps, _⟩ := hr
          obtain ⟨⟨ext1, hc1⟩, hseg2, hrefs1⟩ := hentries h entries ps hn hseg hps
          have heq : deepCopyV (f + 1) h (.href a) =
              (.href (deepCopyEntries f h entries).2.cells.length,
                ⟨(deepCopyEntries f h entries).2.cells ++
                  [.hmap (deepCopyEntries f h entries).1]⟩) := by
            rw [deepCopyV, hg]
            rfl
          rw [heq]
          have hobj : ∀ b ∈ refsOfObj (.hmap (deepCopyEntries f h entries).1),
              n ≤ b := by
            intro b hb
            rw [refsOfObj] at hb
            obtain ⟨kv, hkv, hb2⟩ := List.mem_flatMap.mp hb
            exact hrefs1 kv hkv b hb2
          refine ⟨⟨ext1 ++ [.hmap (deepCopyEntries f h entries).1], ?_⟩,
            segClosed_alloc hseg2 hobj, ?_⟩
          · rw [hc1, List.append_assoc]
          · intro b hb
            rw [refsOfV] at hb
            rcases List.mem_singleton.mp hb with rfl
            rw [hc1]
            simp
            omega
        | hslice elems =>
          simp only [Option.map_eq_some'] at hr
          obtain ⟨ps, hps, _⟩ := hr
          obtain ⟨⟨ext1, hc1⟩, hseg2, hrefs1⟩ := helems h elems ps hn hseg hps
          have heq : deepCopyV (f + 1) h (.href a) =
              (.href (deepCopyElems f h elems).2.cells.length,
                ⟨(deepCopyElems f h elems).2.cells ++
                  [.hslice (deepCopyElems f h elems).1]⟩) := by
            rw [deepCopyV, hg]
            rfl
          rw [heq]
          have hobj : ∀ b ∈ refsOfObj (.hslice (deepCopyElems f h elems).1),
              n ≤ b := by
            intro b hb
            rw [refsOfObj] at hb
            obtain ⟨v2, hv2, hb2⟩ := List.mem_flatMap.mp hb
            exact hrefs1 v2 hv2 b hb2
          refine ⟨⟨ext1 ++ [.hslice (deepCopyElems f h elems).1], ?_⟩,
            segClosed_alloc hseg2 hobj, ?_⟩
          · rw [hc1, List.append_assoc]
          · intro b hb
            rw [refsOfV] at hb
            rcases List.mem_singleton.mp hb with rfl
            rw [hc1]
            simp
            omega

/-- C2: structural independence of `deepCopyMap`.  For every well-formed
heap (no dangling references) and readable value, mutating any map or
slice reachable from the deep copy — writing an arbitrary object into any
cell the copy can reach, through all nested maps and slices — leaves the
readout of the original value unchanged: the pre-transform snapshot used
to compute the delta cannot be altered through the transformed copy. -/
theorem deepCopy_structural_independence :
    ∀ (fuel : Nat) (h : Heap) (v : HVal) (p : PVal),
      heapClosedB h = true →
      valRefsBelowB h.cells.length v = true →
      readV fuel h v = some p →
      ∀ b ∈ reachV fuel (deepCopyV fuel h v).2 (deepCopyV fuel h v).1,
        ∀ o, readV fuel ((deepCopyV fuel h v).2.put b o) v = some p := by
  intro fuel h v p hclB hvB hr b hb o
  have hcl : heapClosedBelow h.cells.length h := by
    intro a ha o2 hg b2 hb2
    rw [Heap.get] at hg
    have hmem : o2 ∈ h.cells := List.getElem?_mem hg
    rw [heapClosedB, List.all_eq_true] at hclB
    have := hclB o2 hmem
    rw [List.all_eq_true] at this
    simpa using this b2 hb2
  have hv : ∀ b2 ∈ refsOfV v, b2 < h.cells.length := by
    rw [valRefsBelowB, List.all_eq_true] at hvB
    intro b2 hb2
    simpa using hvB b2 hb2
  have hseg : segClosedFrom h.cells.length h := by
    intro a ha o2 hg
    rw [Heap.get, List.getElem?_eq_none ha] at hg
    exact Option.noConfusion hg
  obtain ⟨⟨ext, hcext⟩, hseg2, hrefs⟩ :=
    deepCopy_spec fuel h.cells.length h v p (le_refl _) hseg hr
  have hr2 : readV fuel (deepCopyV fuel h v).2 v = some p :=
    readV_mono fuel h _ (fun a o2 hg => Heap.get_of_extension hcext hg) v p hr
  have hbge : h.cells.length ≤ b :=
    reach_closed (fun x => h.cells.length ≤ x) fuel (deepCopyV fuel h v).2
      hseg2 (deepCopyV fuel h v).1 hrefs b hb
  have hcl2 : heapClosedBelow h.cells.length (deepCopyV fuel h v).2 := by
    intro a ha o2 hg
    have hg0 : h.get a = some o2 := by
      rw [Heap.get] at hg ⊢
      rw [hcext, List.getElem?_append_left ha] at hg
      exact hg
    exact hcl a ha o2 hg0
  have hreachv : ∀ x ∈ reachV fuel (deepCopyV fuel h v).2 v,
      x < h.cells.length :=
    reach_closed (fun x => x < h.cells.length) fuel _ hcl2 v hv
  have hbnot : b ∉ reachV fuel (deepCopyV fuel h v).2 v := by
    intro hmem
    have := hreachv b hmem
    omega
  exact readV_frame fuel _ b o v p hbnot hr2

/-- Witness for C2: a document-like heap with a nested map.  The copy of
cell 1 lives in fresh cells 2 and 3; overwriting the copied inner map
(cell 2) with an empty map leaves the original's readout intact. -/
theorem deepCopy_structural_independence_witness :
    readV 3
      ((deepCopyV 3
          (⟨[.hmap [("x", .prim (.pint 1))], .hmap [("nested", .href 0)]]⟩ :
            Heap) (.href 1)).2.put 2 (.hmap []))
      (.href 1) =
    some (.pmap [("nested", .pmap [("x", .prim (.pint 1))])]) := by
  have heval : deepCopyV 3
      (⟨[.hmap [("x", .prim (.pint 1))], .hmap [("nested", .href 0)]]⟩ :
        Heap) (.href 1) =
      (.href 3, ⟨[.hmap [("x", .prim (.pint 1))], .hmap [("nested", .href 0)],
        .hmap [("x", .prim (.pint 1))], .hmap [("nested", .href 2)]]⟩) := by
    simp [deepCopyV, deepCopyEntries, deepCopyElems, Heap.get, Heap.alloc]
  refine deepCopy_structural_independence 3
    ⟨[.hmap [("x", .prim (.pint 1))], .hmap [("nested", .href 0)]]⟩
    (.href 1) (.pmap [("nested", .pmap [("x", .prim (.pint 1))])])
    (by decide) (by decide)
    (by simp [readV, readEntries, readElems, Heap.get]) 2 ?_ (.hmap [])
  rw [heval]
  simp [reachV, reachEntries, reachElems, Heap.get]

end CFFirestore
